import Mathlib

/-!
Shallow embedding of the riet Piet interpreter (Rust sources under src/),
together with theorems settling the specification claims.

Conventions of the embedding:
* Rust `u32` grid coordinates become `Nat` (no overflow is reachable: the
  grid dimensions bound them).
* `num_bigint::BigInt` stack values become `Int`; Rust `%` on `BigInt` is
  truncated remainder, embedded as `Int.tmod`; `/` is `Int.tdiv`.
* `Vec<BigInt>` stacks become `List Int` with the same layout: index 0 is
  the bottom, the last element is the top (`push` appends, `pop` removes
  the last element).
* `std::process::exit(0)` and panics (`unwrap` on `None`, `BigUint % 0`)
  are explicit outcomes of the step/op functions.
-/

namespace Riet

/-- Color enumeration from src/program/color.rs. -/
inductive Color where
  | White
  | Black
  | LightRed
  | LightYellow
  | LightGreen
  | LightCyan
  | LightBlue
  | LightMagenta
  | Red
  | Yellow
  | Green
  | Cyan
  | Blue
  | Magenta
  | DarkRed
  | DarkYellow
  | DarkGreen
  | DarkCyan
  | DarkBlue
  | DarkMagenta
deriving DecidableEq, Repr, Fintype

/-- RGB triple, embedding of image::Rgb<u8> (components are byte values). -/
structure Rgb where
  r : Nat
  g : Nat
  b : Nat
deriving DecidableEq, Repr

namespace Color

/-- Embedding of Color::to_rgb8 (src/program/color.rs). -/
def to_rgb8 : Color → Rgb
  | LightRed     => ⟨0xFF, 0xC0, 0xC0⟩
  | LightYellow  => ⟨0xFF, 0xFF, 0xC0⟩
  | LightGreen   => ⟨0xC0, 0xFF, 0xC0⟩
  | LightCyan    => ⟨0xC0, 0xFF, 0xFF⟩
  | LightBlue    => ⟨0xC0, 0xC0, 0xFF⟩
  | LightMagenta => ⟨0xFF, 0xC0, 0xFF⟩
  | Red          => ⟨0xFF, 0x00, 0x00⟩
  | Yellow       => ⟨0xFF, 0xFF, 0x00⟩
  | Green        => ⟨0x00, 0xFF, 0x00⟩
  | Cyan         => ⟨0x00, 0xFF, 0xFF⟩
  | Blue         => ⟨0x00, 0x00, 0xFF⟩
  | Magenta      => ⟨0xFF, 0x00, 0xFF⟩
  | DarkRed      => ⟨0xC0, 0x00, 0x00⟩
  | DarkYellow   => ⟨0xC0, 0xC0, 0x00⟩
  | DarkGreen    => ⟨0x00, 0xC0, 0x00⟩
  | DarkCyan     => ⟨0x00, 0xC0, 0xC0⟩
  | DarkBlue     => ⟨0x00, 0x00, 0xC0⟩
  | DarkMagenta  => ⟨0xC0, 0x00, 0xC0⟩
  | White        => ⟨0xFF, 0xFF, 0xFF⟩
  | Black        => ⟨0x00, 0x00, 0x00⟩

/-- Embedding of Color::from_rgb8 (src/program/color.rs).  The catch-all
arm logs a warning and yields White unconditionally; the function takes no
missing-color configuration. -/
def from_rgb8 (rgb : Rgb) : Color :=
  match rgb.r, rgb.g, rgb.b with
  | 0xFF, 0xC0, 0xC0 => LightRed
  | 0xFF, 0xFF, 0xC0 => LightYellow
  | 0xC0, 0xFF, 0xC0 => LightGreen
  | 0xC0, 0xFF, 0xFF => LightCyan
  | 0xC0, 0xC0, 0xFF => LightBlue
  | 0xFF, 0xC0, 0xFF => LightMagenta
  | 0xFF, 0x00, 0x00 => Red
  | 0xFF, 0xFF, 0x00 => Yellow
  | 0x00, 0xFF, 0x00 => Green
  | 0x00, 0xFF, 0xFF => Cyan
  | 0x00, 0x00, 0xFF => Blue
  | 0xFF, 0x00, 0xFF => Magenta
  | 0xC0, 0x00, 0x00 => DarkRed
  | 0xC0, 0xC0, 0x00 => DarkYellow
  | 0x00, 0xC0, 0x00 => DarkGreen
  | 0x00, 0xC0, 0xC0 => DarkCyan
  | 0x00, 0x00, 0xC0 => DarkBlue
  | 0xC0, 0x00, 0xC0 => DarkMagenta
  | 0xFF, 0xFF, 0xFF => White
  | 0x00, 0x00, 0x00 => Black
  | _, _, _ => White

/-- Embedding of Color::hue_number (src/program/color.rs). -/
def hue_number : Color → Option Int
  | LightRed     | Red     | DarkRed     => some 0
  | LightYellow  | Yellow  | DarkYellow  => some 1
  | LightGreen   | Green   | DarkGreen   => some 2
  | LightCyan    | Cyan    | DarkCyan    => some 3
  | LightBlue    | Blue    | DarkBlue    => some 4
  | LightMagenta | Magenta | DarkMagenta => some 5
  | White | Black => none

/-- Embedding of Color::hue_change; Rust i32::rem_euclid is Int.emod. -/
def hue_change (c1 c2 : Color) : Option Nat := do
  let n1 ← c1.hue_number
  let n2 ← c2.hue_number
  pure ((n2 - n1).emod 6).toNat

/-- Embedding of Color::lightness_number (src/program/color.rs). -/
def lightness_number : Color → Option Int
  | LightRed | LightYellow | LightGreen | LightCyan | LightBlue | LightMagenta => some 0
  | Red      | Yellow      | Green      | Cyan      | Blue      | Magenta      => some 1
  | DarkRed  | DarkYellow  | DarkGreen  | DarkCyan  | DarkBlue  | DarkMagenta  => some 2
  | White | Black => none

/-- Embedding of Color::lightness_change (src/program/color.rs). -/
def lightness_change (c1 c2 : Color) : Option Nat := do
  let n1 ← c1.lightness_number
  let n2 ← c2.lightness_number
  pure ((n2 - n1).emod 3).toNat

end Color

/-- DirectionPointer from src/program/mod.rs (default Right). -/
inductive DirectionPointer where
  | Right
  | Left
  | Down
  | Up
deriving DecidableEq, Repr, Fintype

/-- Embedding of DirectionPointer::rotate_clockwise. -/
def DirectionPointer.rotate_clockwise : DirectionPointer → DirectionPointer
  | .Right => .Down
  | .Down  => .Left
  | .Left  => .Up
  | .Up    => .Right

/-- CodelChooser from src/program/mod.rs (default Left). -/
inductive CodelChooser where
  | Left
  | Right
deriving DecidableEq, Repr, Fintype

/-- Embedding of CodelChooser::toggle. -/
def CodelChooser.toggle : CodelChooser → CodelChooser
  | .Right => .Left
  | .Left  => .Right

/-- Point from src/program/point.rs: Point(row, col). -/
structure Point where
  row : Nat
  col : Nat
deriving DecidableEq, Repr

/-- Embedding of the replacement condition in ColorBlock::add_codel
(src/program/color_block.rs): the Rust match on
(dp, cc, col.cmp(edge.col), row.cmp(edge.row)) deciding whether the newly
added point replaces the current edge representative.  `p` is the new
point and `q` the stored edge. -/
def moreExtremal (dp : DirectionPointer) (cc : CodelChooser) (p q : Point) : Bool :=
  match dp, cc, compare p.col q.col, compare p.row q.row with
  | .Up,    .Left,  .lt, .eq => true
  | .Up,    .Right, .gt, .eq => true
  | .Down,  .Left,  .gt, .eq => true
  | .Down,  .Right, .lt, .eq => true
  | .Right, .Left,  .eq, .lt => true
  | .Right, .Right, .eq, .gt => true
  | .Left,  .Left,  .eq, .gt => true
  | .Left,  .Right, .eq, .lt => true
  | .Down,  _,      _,   .gt => true
  | .Up,    _,      _,   .lt => true
  | .Left,  _,      .lt, _   => true
  | .Right, _,      .gt, _   => true
  | _, _, _, _ => false

/-- ColorBlock from src/program/color_block.rs.  The HashMap of edge
representatives either is empty (a freshly constructed block before its
first add_codel) or holds an entry for all 8 keys; it is embedded as an
optional total function. -/
structure ColorBlock where
  color : Color
  area : Finset Point
  edges : Option (DirectionPointer → CodelChooser → Point)

namespace ColorBlock

/-- Embedding of ColorBlock::add_codel. -/
def add_codel (cb : ColorBlock) (row col : Nat) : ColorBlock :=
  let point : Point := ⟨row, col⟩
  let area := insert point cb.area
  match cb.edges with
  | none => { cb with area := area, edges := some (fun _ _ => point) }
  | some e =>
      let e1 := fun dp cc => if moreExtremal dp cc point (e dp cc) then point else e dp cc
      { cb with area := area, edges := some e1 }

/-- Embedding of ColorBlock::new. -/
def new (color : Color) (row col : Nat) : ColorBlock :=
  add_codel { color, area := ∅, edges := none } row col

/-- Embedding of ColorBlock::num_codels. -/
def num_codels (cb : ColorBlock) : Nat := cb.area.card

/-- Embedding of ColorBlock::edge; indexing a missing key in the Rust
HashMap panics, hence the Option. -/
def edge (cb : ColorBlock) (dp : DirectionPointer) (cc : CodelChooser) : Option Point :=
  cb.edges.map fun e => e dp cc

end ColorBlock

/-- Block-level effect of Program::merge_color_blocks (src/program/mod.rs)
on the surviving block: step 1 extends the area of the bigger block with the
area of the smaller one, step 2 runs add_codel on the values stored in the
edge map of the smaller block.  The HashMap value iteration is embedded as a
fold over the 8 keys (add_codel updates each edge entry independently, so
any enumeration of the map values appears as some such list). -/
def mergeInto (bigger smaller : ColorBlock) : ColorBlock :=
  let b1 : ColorBlock := { bigger with area := bigger.area ∪ smaller.area }
  match smaller.edges with
  | none => b1
  | some e =>
      (allDpCc.map fun k => e k.1 k.2).foldl (fun cb p => cb.add_codel p.row p.col) b1
where
  /-- The 8 (dp, cc) keys every populated edge map holds. -/
  allDpCc : List (DirectionPointer × CodelChooser) :=
    [(.Up, .Left), (.Up, .Right), (.Down, .Left), (.Down, .Right),
     (.Left, .Left), (.Left, .Right), (.Right, .Left), (.Right, .Right)]

/-- Program from src/program/mod.rs.  The block table `blocks` maps each
point to the color block it belongs to (HashMap lookup misses are None). -/
structure Program where
  codels : List Color
  blocks : Point → Option ColorBlock
  rows : Nat
  cols : Nat

namespace Program

/-- Embedding of Program::get_codel. -/
def get_codel (p : Program) (row col : Nat) : Option Color :=
  if row < p.rows ∧ col < p.cols then
    p.codels.get? (row * p.cols + col)
  else
    none

/-- Embedding of Program::get_color_block. -/
def get_color_block (p : Program) (point : Point) : Option ColorBlock :=
  p.blocks point

end Program

/-- Embedding of Point::next_in_direction (src/program/point.rs). -/
def Point.next_in_direction (p : Point) (dp : DirectionPointer) (prog : Program) : Option Point :=
  match dp with
  | .Down  => if p.row + 1 < prog.rows then some ⟨p.row + 1, p.col⟩ else none
  | .Up    => if p.row ≥ 1 then some ⟨p.row - 1, p.col⟩ else none
  | .Right => if p.col + 1 < prog.cols then some ⟨p.row, p.col + 1⟩ else none
  | .Left  => if p.col ≥ 1 then some ⟨p.row, p.col - 1⟩ else none

/-- IoType from src/interpreter.rs. -/
inductive IoType where
  | Char
  | Number
deriving DecidableEq, Repr

/-- Standard-stream state: pending input lines (each line is the exact
string read_line yields, newline included when one was present) and the
bytes written to stdout so far. -/
structure IOState where
  stdin : List String
  stdout : String
deriving DecidableEq, Repr

namespace Interpreter

/-- Vec::pop: removes and returns the last (top) element. -/
def popStack (s : List Int) : Option (Int × List Int) :=
  match s.getLast? with
  | none => none
  | some a => some (a, s.dropLast)

/-- Two consecutive Vec::pop calls (the `let a = pop()?; let b = pop()?;`
pattern); under a `len() >= 2` guard neither can fail. -/
def pop2 (s : List Int) : Option (Int × Int × List Int) := do
  let (a, s1) ← popStack s
  let (b, s2) ← popStack s1
  pure (a, b, s2)

/-- Embedding of Interpreter::push. -/
def push (v : Nat) (s : List Int) : List Int :=
  s ++ [(v : Int)]

/-- Embedding of Interpreter::pop: underflow is a no-op. -/
def pop (s : List Int) : List Int :=
  match popStack s with
  | none => s
  | some (_, s1) => s1

/-- Embedding of Interpreter::add. -/
def add (s : List Int) : List Int :=
  if 2 ≤ s.length then
    match pop2 s with
    | some (a, b, s2) => s2 ++ [a + b]
    | none => s
  else s

/-- Embedding of Interpreter::subtract. -/
def subtract (s : List Int) : List Int :=
  if 2 ≤ s.length then
    match pop2 s with
    | some (a, b, s2) => s2 ++ [b - a]
    | none => s
  else s

/-- Embedding of Interpreter::multiply. -/
def multiply (s : List Int) : List Int :=
  if 2 ≤ s.length then
    match pop2 s with
    | some (a, b, s2) => s2 ++ [a * b]
    | none => s
  else s

/-- Embedding of Interpreter::divide: on a zero divisor the function
returns after the two pops, so a and b stay removed; BigInt division is
truncated. -/
def divide (s : List Int) : List Int :=
  if 2 ≤ s.length then
    match pop2 s with
    | some (a, b, s2) => if a = 0 then s2 else s2 ++ [Int.tdiv b a]
    | none => s
  else s

/-- Embedding of Interpreter::mod (r#mod): on a zero divisor the function
returns after the two pops; BigInt % is truncated remainder (Int.tmod). -/
def mod (s : List Int) : List Int :=
  if 2 ≤ s.length then
    match pop2 s with
    | some (a, b, s2) => if a = 0 then s2 else s2 ++ [(a + Int.tmod b a).tmod a]
    | none => s
  else s

/-- Embedding of Interpreter::not. -/
def not (s : List Int) : List Int :=
  match popStack s with
  | none => s
  | some (val, s1) => if val = 0 then s1 ++ [1] else s1 ++ [0]

/-- Embedding of Interpreter::greater. -/
def greater (s : List Int) : List Int :=
  if 2 ≤ s.length then
    match pop2 s with
    | some (a, b, s2) => if b > a then s2 ++ [1] else s2 ++ [0]
    | none => s
  else s

/-- Embedding of Interpreter::pointer.  The Rust loop rotates dp clockwise
`(4 + (n % 4)) % 4` times (BigInt % is truncated remainder); the count is
always in [0, 3], so `to_u32().unwrap()` cannot panic. -/
def pointer (s : List Int) (dp : DirectionPointer) : List Int × DirectionPointer :=
  match popStack s with
  | none => (s, dp)
  | some (n, s1) =>
      let turns : Int := (4 + n.tmod 4).tmod 4
      (s1, DirectionPointer.rotate_clockwise^[turns.toNat] dp)

/-- Embedding of Interpreter::switch: BigInt::bit(0) is the low bit of the
two-complement representation, i.e. whether the value is odd. -/
def switch (s : List Int) (cc : CodelChooser) : List Int × CodelChooser :=
  match popStack s with
  | none => (s, cc)
  | some (n, s1) => (s1, if n.emod 2 = 1 then cc.toggle else cc)

/-- Embedding of Interpreter::duplicate. -/
def duplicate (s : List Int) : List Int :=
  match s.getLast? with
  | none => s
  | some top => s ++ [top]

/-- Rust slice::rotate_left(mid): the element at index mid moves to the
front (callers guarantee mid ≤ length). -/
def rotLeft (xs : List Int) (mid : Nat) : List Int :=
  xs.drop mid ++ xs.take mid

/-- Rust slice::rotate_right(k): the last k elements move to the front. -/
def rotRight (xs : List Int) (k : Nat) : List Int :=
  xs.drop (xs.length - k) ++ xs.take (xs.length - k)

/-- Embedding of Interpreter::roll.  A negative popped depth, a depth that
does not fit in usize, or a depth exceeding the remaining stack length
each make the function return after the two pops (the popped values stay
removed).  With depth = 0 the Rust code evaluates
`rolls.magnitude() % depth`, a BigUint division by zero, which panics:
that is the `none` result. -/
def roll (s : List Int) : Option (List Int) :=
  if 2 ≤ s.length then
    match pop2 s with
    | none => some s
    | some (rolls, d, s2) =>
        if d < 0 then some s2
        else
          let depth := d.toNat
          if depth > s2.length then some s2
          else if depth = 0 then none
          else
            let stack_len := s2.length
            let sect := s2.drop (stack_len - depth)
            let mid := rolls.natAbs % depth
            let sect1 := if rolls < 0 then rotRight sect mid else rotLeft sect mid
            some (s2.take (stack_len - depth) ++ sect1)
  else some s

/-- Model of str::parse::<BigInt>: an optional ASCII sign followed by one
or more ASCII digits; anything else fails. -/
def parseBigInt (str : String) : Option Int :=
  let cs := str.toList
  let signAndDigits : Bool × List Char :=
    match cs with
    | '+' :: rest => (false, rest)
    | '-' :: rest => (true, rest)
    | rest => (false, rest)
  let neg := signAndDigits.1
  let ds := signAndDigits.2
  if ds ≠ [] ∧ ds.all (fun c => c.isDigit) then
    let n : Nat := ds.foldl (fun acc c => acc * 10 + (c.toNat - 48)) 0
    some (if neg then -(n : Int) else (n : Int))
  else none

/-- Model of reading one line from stdin: at end of input read_line
returns an empty string. -/
def readLine (stdin : List String) : String × List String :=
  match stdin with
  | [] => ("", [])
  | l :: rest => (l, rest)

/-- Embedding of Interpreter::in (r#in): writes the prompt, reads a line,
then pushes either the scalar value of the first character or the parsed
number; an empty line / unparsable number pushes nothing. -/
def inOp (iotype : IoType) (s : List Int) (io : IOState) : List Int × IOState :=
  let lineAndRest := readLine io.stdin
  let io1 : IOState := { stdin := lineAndRest.2, stdout := io.stdout ++ "> " }
  match iotype with
  | IoType.Char =>
      match lineAndRest.1.toList.head? with
      | none => (s, io1)
      | some c => (s ++ [(c.toNat : Int)], io1)
  | IoType.Number =>
      match parseBigInt lineAndRest.1.trim with
      | none => (s, io1)
      | some n => (s ++ [n], io1)

/-- Valid argument of char::from_u32 after BigInt::to_u32: a non-negative
value fitting in 32 bits that is a Unicode scalar value. -/
def validCharValue (n : Int) : Prop :=
  0 ≤ n ∧ n ≤ 0xFFFFFFFF ∧ (n < 0xD800 ∨ (0xE000 ≤ n ∧ n ≤ 0x10FFFF))

instance : DecidablePred validCharValue := fun _ => by
  unfold validCharValue; infer_instance

/-- Embedding of Interpreter::out: pops first; a popped value that is not
a valid char (for out(char)) is discarded with no output. -/
def out (iotype : IoType) (s : List Int) (io : IOState) : List Int × IOState :=
  match popStack s with
  | none => (s, io)
  | some (top, s1) =>
      match iotype with
      | IoType.Char =>
          if validCharValue top then
            (s1, { io with stdout := io.stdout.push (Char.ofNat top.toNat) })
          else
            (s1, io)
      | IoType.Number =>
          (s1, { io with stdout := io.stdout ++ toString top })

end Interpreter

/-- Mutable interpreter state from src/interpreter.rs (PietState). -/
structure PietState where
  dp : DirectionPointer
  cc : CodelChooser
  curr_codel : Point
  stack : List Int
deriving DecidableEq, Repr

/-- Result of Interpreter::action: ok, an anyhow error (bail!), or a
panic (the roll depth-0 division by zero). -/
inductive ActionOut where
  | err
  | panic
  | ok (st : PietState) (io : IOState)
deriving DecidableEq, Repr

open Interpreter in
/-- Embedding of Interpreter::action (src/interpreter.rs): dispatch on the
(hue change, lightness change) pair; when either change is None no
operation runs. -/
def action (curr_color next_color : Color) (block_value : Nat) (st : PietState) (io : IOState) :
    ActionOut :=
  match curr_color.hue_change next_color, curr_color.lightness_change next_color with
  | some hc, some lc =>
      match hc, lc with
      | 0, 0 => .ok st io
      | 0, 1 => .ok { st with stack := push block_value st.stack } io
      | 0, 2 => .ok { st with stack := pop st.stack } io
      | 1, 0 => .ok { st with stack := add st.stack } io
      | 1, 1 => .ok { st with stack := subtract st.stack } io
      | 1, 2 => .ok { st with stack := multiply st.stack } io
      | 2, 0 => .ok { st with stack := divide st.stack } io
      | 2, 1 => .ok { st with stack := Interpreter.mod st.stack } io
      | 2, 2 => .ok { st with stack := Interpreter.not st.stack } io
      | 3, 0 => .ok { st with stack := greater st.stack } io
      | 3, 1 =>
          let r := pointer st.stack st.dp
          .ok { st with stack := r.1, dp := r.2 } io
      | 3, 2 =>
          let r := switch st.stack st.cc
          .ok { st with stack := r.1, cc := r.2 } io
      | 4, 0 => .ok { st with stack := duplicate st.stack } io
      | 4, 1 =>
          match roll st.stack with
          | none => .panic
          | some s1 => .ok { st with stack := s1 } io
      | 4, 2 =>
          let r := inOp IoType.Number st.stack io
          .ok { st with stack := r.1 } r.2
      | 5, 0 =>
          let r := inOp IoType.Char st.stack io
          .ok { st with stack := r.1 } r.2
      | 5, 1 =>
          let r := out IoType.Number st.stack io
          .ok { st with stack := r.1 } r.2
      | 5, 2 =>
          let r := out IoType.Char st.stack io
          .ok { st with stack := r.1 } r.2
      | _, _ => .err
  | _, _ => .ok st io

/-- Outcome of the white-block loop in Interpreter::step. -/
inductive WhiteOut where
  | exit0
  | panic
  | fuelOut
  | escaped (curr : Point) (curr_color : Color) (next : Point) (next_color : Color)
      (dp : DirectionPointer) (cc : CodelChooser)
deriving DecidableEq, Repr

/-- Embedding of the white-traversal loop in Interpreter::step
(src/interpreter.rs).  Each iteration records the current
(position, dp, cc) triple and exits the process successfully when a
triple repeats; a restricted straight-line move (off grid or Black)
toggles cc and rotates dp clockwise at the same position; a white
neighbour advances the position; a colored neighbour escapes.  The fuel
argument only bounds the recursion depth; the Rust loop terminates
because the triple set over the finite grid is finite. -/
def whiteLoop (prog : Program) (fuel : Nat)
    (seen : Finset (Point × DirectionPointer × CodelChooser))
    (curr : Point) (curr_color : Color) (dp : DirectionPointer) (cc : CodelChooser) : WhiteOut :=
  match fuel with
  | 0 => .fuelOut
  | fuel + 1 =>
      if (curr, dp, cc) ∈ seen then .exit0
      else
        let seen1 := insert (curr, dp, cc) seen
        match curr.next_in_direction dp prog with
        | none => whiteLoop prog fuel seen1 curr curr_color dp.rotate_clockwise cc.toggle
        | some next =>
            match prog.get_codel next.row next.col with
            | some Color.Black =>
                whiteLoop prog fuel seen1 curr curr_color dp.rotate_clockwise cc.toggle
            | some Color.White => whiteLoop prog fuel seen1 next Color.White dp cc
            | some c => .escaped curr curr_color next c dp cc
            | none => .panic

/-- Outcome of the colored-block escape loop in Interpreter::step. -/
inductive ColoredOut where
  | exit0
  | panic
  | escaped (next : Point) (next_color : Option Color)
      (dp : DirectionPointer) (cc : CodelChooser)
deriving DecidableEq, Repr

/-- Embedding of the `for tries in 0..8` escape loop in Interpreter::step
(src/interpreter.rs): each try looks up the (dp, cc) edge of the block and its
neighbour in direction dp; off grid or Black counts as a failed try,
toggling cc when tries is even and rotating dp clockwise when tries is
odd, never moving the position; after 8 failed tries the process exits
successfully.  Missing block or missing edge key would panic (unwrap).
The loop `for tries in 0..8` is embedded structurally: `tries` counts the
attempts made so far and `remaining` the attempts left, so the loop of the
step function is `coloredTries prog pos dp cc 0 8`. -/
def coloredTries (prog : Program) (pos : Point) (dp : DirectionPointer) (cc : CodelChooser)
    (tries : Nat) : (remaining : Nat) → ColoredOut
  | 0 => .exit0
  | remaining + 1 =>
      match prog.get_color_block pos with
      | none => .panic
      | some cb =>
          match cb.edge dp cc with
          | none => .panic
          | some e =>
              let failedStep :=
                fun (dp : DirectionPointer) (cc : CodelChooser) =>
                  if tries % 2 = 0 then (dp, cc.toggle) else (dp.rotate_clockwise, cc)
              match e.next_in_direction dp prog with
              | some next =>
                  let next_color := prog.get_codel next.row next.col
                  if next_color ≠ some Color.Black then
                    .escaped next next_color dp cc
                  else
                    let s := failedStep dp cc
                    coloredTries prog pos s.1 s.2 (tries + 1) remaining
              | none =>
                  let s := failedStep dp cc
                  coloredTries prog pos s.1 s.2 (tries + 1) remaining

/-- Outcome of one Interpreter::step call. -/
inductive StepOut where
  | exit0 (io : IOState)
  | err
  | panic
  | fuelOut
  | ok (st : PietState) (io : IOState)
deriving DecidableEq, Repr

/-- Tail of Interpreter::step after the next codel is found: look up the
current block for its size, dispatch the action, then advance the
position to the next codel. -/
def finishStep (prog : Program) (st : PietState) (io : IOState)
    (curr_color : Color) (next : Point) (next_color : Color) : StepOut :=
  match prog.get_color_block st.curr_codel with
  | none => .panic
  | some cb =>
      let block_value := cb.num_codels
      match action curr_color next_color block_value st io with
      | .err => .err
      | .panic => .panic
      | .ok st2 io2 => .ok { st2 with curr_codel := next } io2

/-- Embedding of Interpreter::step (src/interpreter.rs). -/
def step (prog : Program) (st : PietState) (io : IOState) (fuel : Nat) : StepOut :=
  match prog.get_codel st.curr_codel.row st.curr_codel.col with
  | none => .panic
  | some curr_color =>
      if curr_color = Color.Black then .err
      else if curr_color = Color.White then
        match whiteLoop prog fuel ∅ st.curr_codel curr_color st.dp st.cc with
        | .exit0 => .exit0 io
        | .panic => .panic
        | .fuelOut => .fuelOut
        | .escaped curr curr_color1 next next_color dp cc =>
            finishStep prog { st with curr_codel := curr, dp := dp, cc := cc } io
              curr_color1 next next_color
      else
        match coloredTries prog st.curr_codel st.dp st.cc 0 8 with
        | .exit0 => .exit0 io
        | .panic => .panic
        | .escaped next onext_color dp cc =>
            match onext_color with
            | none => .panic
            | some next_color =>
                finishStep prog { st with dp := dp, cc := cc } io curr_color next next_color

/-- Whether leaving point e in direction dp is restricted: the neighbour
codel is off the grid or Black. -/
def restrictedNeighbor (prog : Program) (e : Point) (dp : DirectionPointer) : Bool :=
  match e.next_in_direction dp prog with
  | none => true
  | some nx => if prog.get_codel nx.row nx.col = some Color.Black then true else false

/-- The program lowered from a 1-by-1 image of the canonical Red pixel at
codel_size 1: one Red codel whose block is built by the single
ColorBlock::new call of the construction loop (no neighbour exists, so no
merge happens). -/
def redProgram : Program :=
  { codels := [Color.from_rgb8 ⟨0xFF, 0x00, 0x00⟩]
    blocks := fun p =>
      if p = ⟨0, 0⟩ then some (ColorBlock.new (Color.from_rgb8 ⟨0xFF, 0x00, 0x00⟩) 0 0)
      else none
    rows := 1
    cols := 1 }

/-- The program lowered from a 1-by-1 image of the canonical White pixel
at codel_size 1, built like redProgram. -/
def whiteProgram : Program :=
  { codels := [Color.from_rgb8 ⟨0xFF, 0xFF, 0xFF⟩]
    blocks := fun p =>
      if p = ⟨0, 0⟩ then some (ColorBlock.new (Color.from_rgb8 ⟨0xFF, 0xFF, 0xFF⟩) 0 0)
      else none
    rows := 1
    cols := 1 }

/-- Strict lexicographic order on integer pairs. -/
def lexLt (x y : Int × Int) : Prop :=
  x.1 < y.1 ∨ (x.1 = y.1 ∧ x.2 < y.2)

/-- Sort key of the (dp, cc) edge-selection order (the table in the spec,
section 4.2): the edge representative of a block is the member with the
lexicographically greatest key. -/
def ekey (dp : DirectionPointer) (cc : CodelChooser) (p : Point) : Int × Int :=
  match dp, cc with
  | .Up,    .Left  => (-(p.row : Int), -(p.col : Int))
  | .Up,    .Right => (-(p.row : Int), (p.col : Int))
  | .Down,  .Left  => ((p.row : Int), (p.col : Int))
  | .Down,  .Right => ((p.row : Int), -(p.col : Int))
  | .Right, .Left  => ((p.col : Int), -(p.row : Int))
  | .Right, .Right => ((p.col : Int), (p.row : Int))
  | .Left,  .Left  => (-(p.col : Int), (p.row : Int))
  | .Left,  .Right => (-(p.col : Int), -(p.row : Int))

/-- Edge-representative invariant of a color block: with a populated edge
map, every stored representative belongs to the area and no member of the
area is more extremal for its (dp, cc) pair; an empty edge map only goes
with an empty area. -/
def edgeInv (cb : ColorBlock) : Prop :=
  match cb.edges with
  | none => cb.area = ∅
  | some e =>
      ∀ dp cc, e dp cc ∈ cb.area ∧ ∀ p ∈ cb.area, moreExtremal dp cc p (e dp cc) = false

instance (cb : ColorBlock) : Decidable (edgeInv cb) :=
  match h : cb.edges with
  | none => decidable_of_iff (cb.area = ∅) (by unfold edgeInv; rw [h])
  | some e =>
      decidable_of_iff
        (∀ dp cc, e dp cc ∈ cb.area ∧ ∀ p ∈ cb.area, moreExtremal dp cc p (e dp cc) = false)
        (by unfold edgeInv; rw [h])

/-! Helper lemmas about the embedded stack and about truncated remainder. -/

open Interpreter

theorem popStack_concat (xs : List Int) (a : Int) : popStack (xs ++ [a]) = some (a, xs) := by
  simp [popStack, List.getLast?_concat, List.dropLast_concat]

theorem pop2_concat2 (xs : List Int) (d r : Int) : pop2 (xs ++ [d, r]) = some (r, d, xs) := by
  have h1 : popStack (xs ++ [d, r]) = some (r, xs ++ [d]) := by
    have h : xs ++ [d, r] = (xs ++ [d]) ++ [r] := by simp
    rw [h, popStack_concat]
  simp [pop2, h1, popStack_concat]

theorem tmod_neg_left (x y : Int) : Int.tmod (-x) y = -Int.tmod x y := by
  cases x with
  | ofNat m =>
      cases m with
      | zero => simp
      | succ k =>
          have h : -(Int.ofNat (k + 1)) = Int.negSucc k := rfl
          rw [h]
          cases y <;> rfl
  | negSucc m =>
      have h : -(Int.negSucc m) = Int.ofNat (m + 1) := rfl
      rw [h]
      cases y <;> simp [Int.tmod]

theorem turns_eq (n : Int) : (4 + n.tmod 4).tmod 4 = n % 4 := by
  rcases le_or_lt 0 n with h | h
  · rw [Int.tmod_eq_emod h (by norm_num)]
    have h0 : 0 ≤ n % 4 := Int.emod_nonneg n (by norm_num)
    have h1 : (0:Int) ≤ 4 + n % 4 := by omega
    rw [Int.tmod_eq_emod h1 (by norm_num)]
    omega
  · have hb : n = -(-n) := by ring
    rw [hb, tmod_neg_left]
    rw [Int.tmod_eq_emod (by omega : (0:Int) ≤ -n) (by norm_num)]
    have h2 : -n % 4 < 4 := Int.emod_lt_of_pos (-n) (by norm_num)
    have h3 : 0 ≤ -n % 4 := Int.emod_nonneg (-n) (by norm_num)
    rw [Int.tmod_eq_emod (by omega : (0:Int) ≤ 4 + -(-n % 4)) (by norm_num)]
    omega

theorem modres_pos (a b : Int) (ha : 0 < a) : (a + Int.tmod b a).tmod a = b % a := by
  have key : ∀ z : Int, (-(z % a)) % a = (-z) % a := by
    intro z
    conv_rhs => rw [show -z = 0 - z by ring, Int.sub_emod]
    simp
  rcases le_or_lt 0 b with hb | hb
  · rw [Int.tmod_eq_emod hb ha.le]
    have e0 : 0 ≤ b % a := Int.emod_nonneg b (by omega)
    have e1 : b % a < a := Int.emod_lt_of_pos b ha
    rw [Int.tmod_eq_emod (by omega) ha.le]
    calc (a + b % a) % a = (b % a + a * 1) % a := by ring_nf
    _ = b % a % a := Int.add_mul_emod_self_left _ _ _
    _ = b % a := Int.emod_emod_of_dvd b dvd_rfl
  · have hnb : (0:Int) ≤ -b := by omega
    have h1 : Int.tmod b a = -((-b) % a) := by
      rw [show b = -(-b) from by ring, tmod_neg_left, Int.tmod_eq_emod hnb ha.le]
      simp
    rw [h1]
    have e0 : 0 ≤ (-b) % a := Int.emod_nonneg _ (by omega)
    have e1 : (-b) % a < a := Int.emod_lt_of_pos _ ha
    rw [Int.tmod_eq_emod (by omega) ha.le]
    calc (a + -((-b) % a)) % a
        = (-((-b) % a) + a * 1) % a := by ring_nf
    _ = (-((-b) % a)) % a := Int.add_mul_emod_self_left _ _ _
    _ = (-(-b)) % a := key (-b)
    _ = b % a := by simp

theorem modres_neg (a b : Int) (ha : a < 0) :
    a < (a + Int.tmod b a).tmod a ∧ (a + Int.tmod b a).tmod a ≤ 0 := by
  have hc : 0 < -a := by omega
  have h1 : Int.tmod b a = Int.tmod b (-a) := by
    conv_lhs => rw [show a = -(-a) from by ring, Int.tmod_neg]
  set c : Int := -a with hcdef
  set t : Int := Int.tmod b c with htdef
  have ht : t < c := Int.tmod_lt_of_pos b hc
  have h2 : a + Int.tmod b a = -(c - t) := by rw [h1]; omega
  rw [h2]
  have h3 : Int.tmod (-(c - t)) a = -Int.tmod (c - t) a := tmod_neg_left _ _
  have h4 : Int.tmod (c - t) a = Int.tmod (c - t) c := by
    rw [show a = -c from by omega, Int.tmod_neg]
  have h5 : Int.tmod (c - t) c = (c - t) % c := Int.tmod_eq_emod (by omega) hc.le
  have e0 : 0 ≤ (c - t) % c := Int.emod_nonneg _ (by omega)
  have e1 : (c - t) % c < c := Int.emod_lt_of_pos _ hc
  rw [h3, h4, h5]
  omega

/-! Claim theorems. -/

/-- C10: for each of the 20 Color values, classifying its canonical RGB
triple round-trips to the same value, and to_rgb8 is injective
(from_rgb8 inverts it exactly on the canonical palette). -/
theorem claim10_rgb_roundtrip :
    (∀ c : Color, Color.from_rgb8 (Color.to_rgb8 c) = c) ∧
      Function.Injective Color.to_rgb8 := by
  have h1 : ∀ c : Color, Color.from_rgb8 (Color.to_rgb8 c) = c := by
    intro c; cases c <;> rfl
  exact ⟨h1, fun a b h => by rw [← h1 a, ← h1 b, h]⟩

/-- C9: evaluation of the pixel classifier at an unrecognised RGB value.
Color::from_rgb8 maps it to White unconditionally; the function never
consults the missing_color_white flag that main.rs sets from the
command-line option --missing-color-black, so the configured Black
fallback claimed by the spec does not exist in the code. -/
theorem claim9_unrecognized_rgb : Color.from_rgb8 ⟨0x01, 0x02, 0x03⟩ = Color.White := rfl

/-- C4: pointer pops n and leaves dp rotated clockwise exactly
((n mod 4) + 4) mod 4 = n mod 4 times (mathematical mod); in particular
popping -1 with dp = Right leaves dp = Up. -/
theorem claim4_pointer :
    (∀ (s : List Int) (n : Int) (dp : DirectionPointer),
        pointer (s ++ [n]) dp =
          (s, DirectionPointer.rotate_clockwise^[(n % 4).toNat] dp)) ∧
      pointer [(-1 : Int)] DirectionPointer.Right = ([], DirectionPointer.Up) := by
  have h1 : ∀ (s : List Int) (n : Int) (dp : DirectionPointer),
      pointer (s ++ [n]) dp = (s, DirectionPointer.rotate_clockwise^[(n % 4).toNat] dp) := by
    intro s n dp
    simp [pointer, popStack_concat, turns_eq]
  refine ⟨h1, by decide⟩

/-- C5: mod with nonzero popped divisor a and dividend b pushes
((b tmod a) + a) tmod a; for positive a this is the unique representative
of b mod a in [0, a); for every a the result lies between 0 and a, so it
is zero or has the sign of a, and its magnitude is below the magnitude of
a. -/
theorem claim5_mod (s : List Int) (b a : Int) (ha : a ≠ 0) :
    Interpreter.mod (s ++ [b, a]) = s ++ [(Int.tmod b a + a).tmod a] ∧
      (0 < a →
        (Int.tmod b a + a).tmod a = b % a ∧
          0 ≤ (Int.tmod b a + a).tmod a ∧ (Int.tmod b a + a).tmod a < a) ∧
      (a < 0 → a < (Int.tmod b a + a).tmod a ∧ (Int.tmod b a + a).tmod a ≤ 0) := by
  have hflip : (Int.tmod b a + a).tmod a = (a + Int.tmod b a).tmod a := by rw [Int.add_comm]
  have hcode : Interpreter.mod (s ++ [b, a]) = s ++ [(a + Int.tmod b a).tmod a] := by
    unfold Interpreter.mod
    rw [if_pos (by simp), pop2_concat2]
    simp only [if_neg ha]
  refine ⟨by rw [hflip]; exact hcode, fun hpos => ?_, fun hneg => ?_⟩
  · have h := modres_pos a b hpos
    have e0 : 0 ≤ b % a := Int.emod_nonneg b ha
    have e1 : b % a < a := Int.emod_lt_of_pos b hpos
    rw [hflip, h]
    exact ⟨rfl, e0, e1⟩
  · rw [hflip]
    exact modres_neg a b hneg

/-- C5 witness: mod on the stack [7, 3] pushes 1, the representative of
7 mod 3 in [0, 3). -/
theorem claim5_mod_witness : Interpreter.mod [(7 : Int), 3] = [1] := by
  have h := (claim5_mod [] 7 3 (by decide)).1
  have h2 : (Int.tmod 7 3 + 3).tmod 3 = 1 := by decide
  rw [h2] at h
  simpa using h

/-- C8: the hue and lightness shifts are both defined exactly when
neither color is White or Black; on equal hue-bearing colors both shifts
are zero; and a transition with White or Black on either side runs no
instruction, leaving state and streams unchanged. -/
theorem claim8_shifts :
    (∀ c1 c2 : Color,
        ((c1.hue_change c2).isSome ∧ (c1.lightness_change c2).isSome) ↔
          ((c1 ≠ Color.White ∧ c1 ≠ Color.Black) ∧ (c2 ≠ Color.White ∧ c2 ≠ Color.Black))) ∧
      (∀ c : Color, c ≠ Color.White → c ≠ Color.Black →
        c.hue_change c = some 0 ∧ c.lightness_change c = some 0) ∧
      (∀ (c1 c2 : Color) (bv : Nat) (st : PietState) (io : IOState),
        c1 = Color.White ∨ c1 = Color.Black ∨ c2 = Color.White ∨ c2 = Color.Black →
        action c1 c2 bv st io = ActionOut.ok st io) := by
  refine ⟨by decide, by decide, ?_⟩
  intro c1 c2 bv st io h
  rcases h with h | h | h | h <;> subst h
  · cases c2 <;> rfl
  · cases c2 <;> rfl
  · cases c1 <;> rfl
  · cases c1 <;> rfl

/-- C1 counterexample: on stack [1, 2, 3, 4, 5] (top 5) with depth 3 and
rolls 1 pushed, roll yields [1, 2, 4, 5, 3] (top 3), not the claimed
[1, 2, 5, 3, 4]: a positive roll rotates the window left, not right. -/
theorem claim1_counterexample :
    roll [(1 : Int), 2, 3, 4, 5, 3, 1] = some [1, 2, 4, 5, 3] ∧
      roll [(1 : Int), 2, 3, 4, 5, 3, 1] ≠ some [1, 2, 5, 3, 4] := by decide

/-- C1 amended: after popping rolls then a positive depth with at least
depth further entries, roll rotates the window of the top depth elements
LEFT by (magnitude of rolls) mod depth positions when rolls is
non-negative (slice rotate_left: the element depth positions below the
top surfaces) and RIGHT by the same count when rolls is negative; in
particular [1, 2, 3, 4, 5], push 3, push 1, roll yields [1, 2, 4, 5, 3]
(top is 3). -/
theorem claim1_roll (below window : List Int) (r : Int) (hw : window ≠ []) :
    roll ((below ++ window) ++ [(window.length : Int), r]) =
      some (below ++
        (if r < 0 then rotRight window (r.natAbs % window.length)
         else rotLeft window (r.natAbs % window.length))) := by
  have hw0 : 0 < window.length := List.length_pos.mpr hw
  have hlen : (below ++ window).length = below.length + window.length := by simp
  have hp : pop2 ((below ++ window) ++ [(window.length : Int), r]) =
      some (r, (window.length : Int), below ++ window) := pop2_concat2 _ _ _
  simp only [roll]
  rw [if_pos (by simp; omega)]
  simp only [hp]
  rw [if_neg (by omega : ¬ ((window.length : Int) < 0))]
  simp only [Int.toNat_natCast]
  rw [if_neg (by omega : ¬ (window.length > (below ++ window).length))]
  rw [if_neg (by omega : ¬ (window.length = 0))]
  have hd : (below ++ window).length - window.length = below.length := by omega
  rw [hd, List.drop_left, List.take_left]

/-- C1 witness: the amended rotation at the concrete scenario of the
claim, stack [1, 2] ++ [3, 4, 5] with depth 3 and rolls 1. -/
theorem claim1_roll_witness : roll [(1 : Int), 2, 3, 4, 5, 3, 1] = some [1, 2, 4, 5, 3] := by
  have h := claim1_roll [1, 2] [3, 4, 5] 1 (by decide)
  simpa using h

/-- C2 counterexample: push 5, push 0, mod leaves the empty stack, not
the claimed unchanged [5, 0]: the zero divisor makes mod return after the
two pops without restoring the popped operands. -/
theorem claim2_counterexample :
    Interpreter.mod [(5 : Int), 0] ≠ [5, 0] ∧ Interpreter.mod [(5 : Int), 0] = [] := by decide

/-- C2 amended: stack underflow of any operation is a silent no-op that
leaves the stack exactly as it was, and execution continues; but
divide-by-zero, mod-by-zero, a roll whose popped depth is negative or
exceeds the remaining stack length, and out(char) on a value that is not
a valid character consume the operands they popped, leaving only the rest
of the stack; in particular push 5, push 0, mod leaves the empty
stack. -/
theorem claim2_noops :
    (∀ s : List Int, s.length < 2 →
        add s = s ∧ subtract s = s ∧ multiply s = s ∧ divide s = s ∧
        Interpreter.mod s = s ∧ greater s = s ∧ roll s = some s) ∧
    (∀ (dp : DirectionPointer) (cc : CodelChooser) (io : IOState) (t : IoType),
        pop ([] : List Int) = [] ∧ Interpreter.not [] = [] ∧ duplicate [] = [] ∧
        pointer [] dp = ([], dp) ∧ switch [] cc = ([], cc) ∧ out t [] io = ([], io)) ∧
    (∀ (s : List Int) (b : Int), Interpreter.mod (s ++ [b, 0]) = s ∧ divide (s ++ [b, 0]) = s) ∧
    (∀ (s : List Int) (d r : Int), d < 0 → roll (s ++ [d, r]) = some s) ∧
    (∀ (s : List Int) (d r : Int), 0 ≤ d → s.length < d.toNat → roll (s ++ [d, r]) = some s) ∧
    (∀ (io : IOState) (n : Int) (s : List Int), ¬ validCharValue n →
        out IoType.Char (s ++ [n]) io = (s, io)) ∧
    Interpreter.mod [(5 : Int), 0] = [] := by
  refine ⟨?_, ?_, ?_, ?_, ?_, ?_, by decide⟩
  · intro s h
    have h2 : ¬ 2 ≤ s.length := by omega
    refine ⟨?_, ?_, ?_, ?_, ?_, ?_, ?_⟩ <;>
      simp only [add, subtract, multiply, divide, Interpreter.mod, greater, roll, if_neg h2]
  · intro dp cc io t
    refine ⟨rfl, rfl, rfl, rfl, rfl, ?_⟩
    cases t <;> rfl
  · intro s b
    have hp : pop2 (s ++ [b, 0]) = some (0, b, s) := pop2_concat2 _ _ _
    constructor <;>
      · simp only [Interpreter.mod, divide, hp]
        rw [if_pos (by simp)]
        simp
  · intro s d r hd
    have hp : pop2 (s ++ [d, r]) = some (r, d, s) := pop2_concat2 _ _ _
    simp only [roll, hp]
    rw [if_pos (by simp), if_pos hd]
  · intro s d r hd0 hlen
    have hp : pop2 (s ++ [d, r]) = some (r, d, s) := pop2_concat2 _ _ _
    simp only [roll, hp]
    rw [if_pos (by simp), if_neg (by omega : ¬ d < 0), if_pos (by omega : d.toNat > s.length)]
  · intro io n s hn
    have hp : popStack (s ++ [n]) = some (n, s) := popStack_concat _ _
    simp only [out, hp]
    rw [if_neg hn]

/-- C2 witness: concrete instances of the amended behaviours: add
underflows on a single entry, mod-by-zero consumes its operands, and a
negative roll depth consumes the two popped values. -/
theorem claim2_noops_witness :
    add [(4 : Int)] = [4] ∧ Interpreter.mod ([(5 : Int)] ++ [(7 : Int), 0]) = [5] ∧
      roll ([(9 : Int)] ++ [(-1 : Int), 2]) = some [9] :=
  ⟨(claim2_noops.1 [4] (by decide)).1, (claim2_noops.2.2.1 [5] 7).1,
    claim2_noops.2.2.2.1 [9] (-1) 2 (by decide)⟩

/-- C8 witness: the shifts of Red against itself are zero, and a
transition from White to Red runs no instruction on a concrete state. -/
theorem claim8_shifts_witness :
    (Color.Red.hue_change Color.Red = some 0 ∧
        Color.Red.lightness_change Color.Red = some 0) ∧
      action Color.White Color.Red 3
          ⟨DirectionPointer.Right, CodelChooser.Left, ⟨0, 0⟩, [5]⟩ ⟨[], ""⟩ =
        ActionOut.ok ⟨DirectionPointer.Right, CodelChooser.Left, ⟨0, 0⟩, [5]⟩ ⟨[], ""⟩ :=
  ⟨claim8_shifts.2.1 Color.Red (by decide) (by decide),
    claim8_shifts.2.2 Color.White Color.Red 3 _ _ (Or.inl rfl)⟩

/-- C4 witness: pointer at the concrete inputs of the claim. -/
theorem claim4_pointer_witness :
    pointer ([] ++ [(-1 : Int)]) DirectionPointer.Right =
      ([], DirectionPointer.rotate_clockwise^[((-1 : Int) % 4).toNat] DirectionPointer.Right) :=
  claim4_pointer.1 [] (-1) DirectionPointer.Right

/-- C10 witness: the round trip at DarkCyan and injectivity applied at
equal canonical triples. -/
theorem claim10_rgb_roundtrip_witness :
    Color.from_rgb8 (Color.to_rgb8 Color.DarkCyan) = Color.DarkCyan ∧
      Color.Red = Color.Red :=
  ⟨claim10_rgb_roundtrip.1 Color.DarkCyan,
    claim10_rgb_roundtrip.2 (rfl : Color.to_rgb8 Color.Red = Color.to_rgb8 Color.Red)⟩

/-- C3: in a colored block, a try whose edge neighbour in direction dp is
off grid or Black leaves the position in place and toggles cc on even
tries (the first and every odd-numbered attempt) and rotates dp clockwise
on odd tries (every even-numbered attempt); when every (dp, cc)
combination is restricted the 8-try loop exits the process with success;
consequently one step of the 1-by-1 Red program at codel_size 1 exits 0
with empty output. -/
theorem claim3_colored_escape :
    (∀ (prog : Program) (pos : Point) (dp : DirectionPointer) (cc : CodelChooser)
        (t rem : Nat) (cb : ColorBlock) (e : Point),
        prog.get_color_block pos = some cb →
        cb.edge dp cc = some e →
        restrictedNeighbor prog e dp = true →
        coloredTries prog pos dp cc t (rem + 1) =
          coloredTries prog pos (if t % 2 = 0 then dp else dp.rotate_clockwise)
            (if t % 2 = 0 then cc.toggle else cc) (t + 1) rem) ∧
    (∀ (prog : Program) (pos : Point) (dp : DirectionPointer) (cc : CodelChooser)
        (cb : ColorBlock) (e : DirectionPointer → CodelChooser → Point),
        prog.get_color_block pos = some cb →
        cb.edges = some e →
        (∀ dp1 cc1, restrictedNeighbor prog (e dp1 cc1) dp1 = true) →
        coloredTries prog pos dp cc 0 8 = ColoredOut.exit0) ∧
    step redProgram ⟨DirectionPointer.Right, CodelChooser.Left, ⟨0, 0⟩, []⟩ ⟨[], ""⟩ 1 =
      StepOut.exit0 ⟨[], ""⟩ := by
  have hA : ∀ (prog : Program) (pos : Point) (dp : DirectionPointer) (cc : CodelChooser)
      (t rem : Nat) (cb : ColorBlock) (e : Point),
      prog.get_color_block pos = some cb →
      cb.edge dp cc = some e →
      restrictedNeighbor prog e dp = true →
      coloredTries prog pos dp cc t (rem + 1) =
        coloredTries prog pos (if t % 2 = 0 then dp else dp.rotate_clockwise)
          (if t % 2 = 0 then cc.toggle else cc) (t + 1) rem := by
    intro prog pos dp cc t rem cb e hcb hedge hrestr
    rcases hnx : e.next_in_direction dp prog with _ | nx
    · simp only [coloredTries, hcb, hedge, hnx]
      by_cases ht : t % 2 = 0 <;> simp [ht]
    · have hgc : prog.get_codel nx.row nx.col = some Color.Black := by
        unfold restrictedNeighbor at hrestr
        simp only [hnx] at hrestr
        by_contra hne
        rw [if_neg hne] at hrestr
        exact Bool.false_ne_true hrestr
      simp only [coloredTries, hcb, hedge, hnx, hgc]
      by_cases ht : t % 2 = 0 <;> simp [ht]
  refine ⟨hA, ?_, by decide⟩
  intro prog pos dp cc cb e hcb hE hrestr
  have hedge : ∀ dp1 cc1, cb.edge dp1 cc1 = some (e dp1 cc1) := by
    intro dp1 cc1
    simp [ColorBlock.edge, hE]
  have key : ∀ (rem t : Nat) (dp1 : DirectionPointer) (cc1 : CodelChooser),
      coloredTries prog pos dp1 cc1 t rem = ColoredOut.exit0 := by
    intro rem
    induction rem with
    | zero => intro t dp1 cc1; rfl
    | succ n ih =>
        intro t dp1 cc1
        rw [hA prog pos dp1 cc1 t n cb (e dp1 cc1) hcb (hedge dp1 cc1) (hrestr dp1 cc1)]
        exact ih _ _ _
  exact key 8 0 dp cc

/-- C3 witness: the 8-try loop of the 1-by-1 Red program exits with
success from the initial direction and chooser. -/
theorem claim3_colored_escape_witness :
    coloredTries redProgram ⟨0, 0⟩ DirectionPointer.Right CodelChooser.Left 0 8 =
      ColoredOut.exit0 :=
  claim3_colored_escape.2.1 redProgram ⟨0, 0⟩ DirectionPointer.Right CodelChooser.Left
    (ColorBlock.new (Color.from_rgb8 ⟨0xFF, 0x00, 0x00⟩) 0 0)
    (fun _ _ => ⟨0, 0⟩) rfl rfl (by decide)

/-- C6: during a white excursion, an iteration whose recorded triple is
already in the seen set exits the process with success, and a restricted
straight-line move toggles cc and rotates dp clockwise while the position
and the white color stay the same, after recording the current triple. -/
theorem claim6_white :
    (∀ (prog : Program) (fuel : Nat) (seen : Finset (Point × DirectionPointer × CodelChooser))
        (curr : Point) (col : Color) (dp : DirectionPointer) (cc : CodelChooser),
        (curr, dp, cc) ∈ seen →
        whiteLoop prog (fuel + 1) seen curr col dp cc = WhiteOut.exit0) ∧
    (∀ (prog : Program) (fuel : Nat) (seen : Finset (Point × DirectionPointer × CodelChooser))
        (curr : Point) (col : Color) (dp : DirectionPointer) (cc : CodelChooser),
        (curr, dp, cc) ∉ seen →
        restrictedNeighbor prog curr dp = true →
        whiteLoop prog (fuel + 1) seen curr col dp cc =
          whiteLoop prog fuel (insert (curr, dp, cc) seen) curr col
            dp.rotate_clockwise cc.toggle) := by
  constructor
  · intro prog fuel seen curr col dp cc h
    simp only [whiteLoop, if_pos h]
  · intro prog fuel seen curr col dp cc h hrestr
    rcases hnx : curr.next_in_direction dp prog with _ | nx
    · simp only [whiteLoop, if_neg h, hnx]
    · have hgc : prog.get_codel nx.row nx.col = some Color.Black := by
        unfold restrictedNeighbor at hrestr
        simp only [hnx] at hrestr
        by_contra hne
        rw [if_neg hne] at hrestr
        exact Bool.false_ne_true hrestr
      simp only [whiteLoop, if_neg h, hnx, hgc]

/-- C6 witness: on the 1-by-1 White program, a repeated triple exits with
success, and the restricted move from the empty seen set records the
triple, toggles cc and rotates dp in place. -/
theorem claim6_white_witness :
    whiteLoop whiteProgram 1 {(⟨0, 0⟩, DirectionPointer.Right, CodelChooser.Left)}
        ⟨0, 0⟩ Color.White DirectionPointer.Right CodelChooser.Left = WhiteOut.exit0 ∧
      whiteLoop whiteProgram 1 ∅ ⟨0, 0⟩ Color.White DirectionPointer.Right CodelChooser.Left =
        whiteLoop whiteProgram 0
          (insert (⟨0, 0⟩, DirectionPointer.Right, CodelChooser.Left) ∅) ⟨0, 0⟩ Color.White
          DirectionPointer.Right.rotate_clockwise CodelChooser.Left.toggle :=
  ⟨claim6_white.1 whiteProgram 0 _ _ _ _ _ (by decide),
    claim6_white.2 whiteProgram 0 _ _ _ _ _ (by decide) (by decide)⟩

/-- Trichotomy of Nat.compare, packaged for case analysis. -/
theorem compare_cases (a b : Nat) :
    (compare a b = Ordering.lt ∧ a < b) ∨ (compare a b = Ordering.eq ∧ a = b) ∨
      (compare a b = Ordering.gt ∧ b < a) := by
  rcases Nat.lt_trichotomy a b with h | h | h
  · exact Or.inl ⟨Nat.compare_eq_lt.mpr h, h⟩
  · exact Or.inr (Or.inl ⟨Nat.compare_eq_eq.mpr h, h⟩)
  · exact Or.inr (Or.inr ⟨Nat.compare_eq_gt.mpr h, h⟩)

/-- The replacement condition of add_codel is exactly the strict
lexicographic comparison of the sort keys of the section 4.2 table. -/
theorem moreExtremal_iff (dp : DirectionPointer) (cc : CodelChooser) (p q : Point) :
    moreExtremal dp cc p q = true ↔ lexLt (ekey dp cc q) (ekey dp cc p) := by
  rcases compare_cases p.col q.col with ⟨h1, hf1⟩ | ⟨h1, hf1⟩ | ⟨h1, hf1⟩ <;>
    rcases compare_cases p.row q.row with ⟨h2, hf2⟩ | ⟨h2, hf2⟩ | ⟨h2, hf2⟩ <;>
      cases dp <;> cases cc <;>
        (simp only [moreExtremal, ekey, lexLt, h1, h2]; simp; omega)

theorem mE_false_iff (dp : DirectionPointer) (cc : CodelChooser) (p q : Point) :
    moreExtremal dp cc p q = false ↔ ¬ lexLt (ekey dp cc q) (ekey dp cc p) := by
  rw [← moreExtremal_iff]
  cases h : moreExtremal dp cc p q <;> simp

theorem mE_irrefl (dp : DirectionPointer) (cc : CodelChooser) (p : Point) :
    moreExtremal dp cc p p = false := by
  rw [mE_false_iff]
  obtain ⟨k1, k2⟩ := ekey dp cc p
  simp [lexLt]

theorem mE_asym (dp : DirectionPointer) (cc : CodelChooser) (p q : Point)
    (h : moreExtremal dp cc p q = true) : moreExtremal dp cc q p = false := by
  rw [moreExtremal_iff] at h
  rw [mE_false_iff]
  revert h
  obtain ⟨a1, a2⟩ := ekey dp cc p
  obtain ⟨b1, b2⟩ := ekey dp cc q
  simp only [lexLt]
  omega

theorem mE_chain (dp : DirectionPointer) (cc : CodelChooser) (p q r : Point)
    (h1 : moreExtremal dp cc p q = false) (h2 : moreExtremal dp cc q r = false) :
    moreExtremal dp cc p r = false := by
  rw [mE_false_iff] at h1 h2 ⊢
  revert h1 h2
  obtain ⟨a1, a2⟩ := ekey dp cc p
  obtain ⟨b1, b2⟩ := ekey dp cc q
  obtain ⟨c1, c2⟩ := ekey dp cc r
  simp only [lexLt]
  omega

theorem edgeInv_iff_of_some {cb : ColorBlock} {e : DirectionPointer → CodelChooser → Point}
    (h : cb.edges = some e) :
    edgeInv cb ↔
      ∀ dp cc, e dp cc ∈ cb.area ∧ ∀ p ∈ cb.area, moreExtremal dp cc p (e dp cc) = false := by
  unfold edgeInv
  rw [h]

theorem edgeInv_iff_of_none {cb : ColorBlock} (h : cb.edges = none) :
    edgeInv cb ↔ cb.area = ∅ := by
  unfold edgeInv
  rw [h]

theorem add_codel_area (cb : ColorBlock) (row col : Nat) :
    (cb.add_codel row col).area = insert ⟨row, col⟩ cb.area := by
  unfold ColorBlock.add_codel
  rcases cb.edges <;> rfl

theorem add_codel_edges_none (cb : ColorBlock) (row col : Nat) (h : cb.edges = none) :
    (cb.add_codel row col).edges = some (fun _ _ => ⟨row, col⟩) := by
  unfold ColorBlock.add_codel
  rw [h]

theorem add_codel_edges_some (cb : ColorBlock) (row col : Nat)
    (e : DirectionPointer → CodelChooser → Point) (h : cb.edges = some e) :
    (cb.add_codel row col).edges =
      some (fun dp cc =>
        if moreExtremal dp cc ⟨row, col⟩ (e dp cc) then (⟨row, col⟩ : Point) else e dp cc) := by
  unfold ColorBlock.add_codel
  rw [h]

theorem edgeInv_new (c : Color) (row col : Nat) : edgeInv (ColorBlock.new c row col) := by
  unfold ColorBlock.new
  rw [edgeInv_iff_of_some (add_codel_edges_none _ row col rfl)]
  intro dp cc
  rw [add_codel_area]
  refine ⟨by simp, ?_⟩
  intro p hp
  simp only [Finset.mem_insert, Finset.not_mem_empty, or_false] at hp
  subst hp
  exact mE_irrefl dp cc _

theorem edgeInv_add (cb : ColorBlock) (row col : Nat) (h : edgeInv cb) :
    edgeInv (cb.add_codel row col) := by
  rcases hE : cb.edges with _ | e
  · have ha : cb.area = ∅ := (edgeInv_iff_of_none hE).mp h
    rw [edgeInv_iff_of_some (add_codel_edges_none _ row col hE)]
    intro dp cc
    rw [add_codel_area, ha]
    refine ⟨by simp, ?_⟩
    intro p hp
    simp only [Finset.mem_insert, Finset.not_mem_empty, or_false] at hp
    subst hp
    exact mE_irrefl dp cc _
  · have hI := (edgeInv_iff_of_some hE).mp h
    rw [edgeInv_iff_of_some (add_codel_edges_some _ row col e hE)]
    intro dp cc
    rw [add_codel_area]
    obtain ⟨hmem, hmax⟩ := hI dp cc
    by_cases hm : moreExtremal dp cc ⟨row, col⟩ (e dp cc) = true
    · simp only [hm, if_pos]
      refine ⟨by simp, ?_⟩
      intro p hp
      rcases Finset.mem_insert.mp hp with hp | hp
      · subst hp
        exact mE_irrefl dp cc _
      · exact mE_chain dp cc p (e dp cc) _ (hmax p hp) (mE_asym dp cc _ _ hm)
    · have hm2 : moreExtremal dp cc ⟨row, col⟩ (e dp cc) = false := by
        cases hq : moreExtremal dp cc ⟨row, col⟩ (e dp cc)
        · rfl
        · exact absurd hq hm
      simp only [hm2, Bool.false_eq_true, if_neg, if_false]
      refine ⟨Finset.mem_insert_of_mem hmem, ?_⟩
      intro p hp
      rcases Finset.mem_insert.mp hp with hp | hp
      · subst hp
        exact hm2
      · exact hmax p hp

theorem foldl_add_codel (L : List Point) :
    ∀ (cb : ColorBlock) (e : DirectionPointer → CodelChooser → Point), cb.edges = some e →
      ∃ e1, (L.foldl (fun acc p => acc.add_codel p.row p.col) cb).edges = some e1 ∧
        (L.foldl (fun acc p => acc.add_codel p.row p.col) cb).area = cb.area ∪ L.toFinset ∧
        ∀ dp cc,
          (e1 dp cc = e dp cc ∨ e1 dp cc ∈ L) ∧
            moreExtremal dp cc (e dp cc) (e1 dp cc) = false ∧
            ∀ p ∈ L, moreExtremal dp cc p (e1 dp cc) = false := by
  induction L with
  | nil =>
      intro cb e he
      refine ⟨e, he, by simp, ?_⟩
      intro dp cc
      exact ⟨Or.inl rfl, mE_irrefl _ _ _, by simp⟩
  | cons p L ih =>
      intro cb e he
      have hpt : (⟨p.row, p.col⟩ : Point) = p := rfl
      have he2 : (cb.add_codel p.row p.col).edges =
          some (fun dp cc =>
            if moreExtremal dp cc ⟨p.row, p.col⟩ (e dp cc) then (⟨p.row, p.col⟩ : Point)
            else e dp cc) :=
        add_codel_edges_some cb p.row p.col e he
      obtain ⟨e1, h1, h2, h3⟩ := ih (cb.add_codel p.row p.col) _ he2
      refine ⟨e1, by simpa using h1, ?_, ?_⟩
      · simp only [List.foldl_cons]
        rw [h2, add_codel_area, hpt]
        simp [Finset.insert_union, Finset.union_insert]
      · intro dp cc
        obtain ⟨m1, m2, m3⟩ := h3 dp cc
        by_cases hq : moreExtremal dp cc ⟨p.row, p.col⟩ (e dp cc) = true
        · simp only [hq, if_pos, hpt] at m1 m2
          refine ⟨?_, ?_, ?_⟩
          · rcases m1 with m1 | m1
            · exact Or.inr (by rw [m1]; exact List.mem_cons_self p L)
            · exact Or.inr (List.mem_cons_of_mem p m1)
          · exact mE_chain dp cc (e dp cc) p (e1 dp cc) (mE_asym dp cc _ _ (hpt ▸ hq)) m2
          · intro q hq2
            rcases List.mem_cons.mp hq2 with hq2 | hq2
            · subst hq2
              exact m2
            · exact m3 q hq2
        · have hq2 : moreExtremal dp cc ⟨p.row, p.col⟩ (e dp cc) = false := by
            cases hqq : moreExtremal dp cc ⟨p.row, p.col⟩ (e dp cc)
            · rfl
            · exact absurd hqq hq
          simp only [hq2, Bool.false_eq_true, if_false] at m1 m2
          refine ⟨?_, m2, ?_⟩
          · rcases m1 with m1 | m1
            · exact Or.inl m1
            · exact Or.inr (List.mem_cons_of_mem p m1)
          · intro q hq3
            rcases List.mem_cons.mp hq3 with hq3 | hq3
            · subst hq3
              exact mE_chain dp cc q (e dp cc) (e1 dp cc) (hpt ▸ hq2) m2
            · exact m3 q hq3

theorem foldl_add_codel_none (L : List Point) (cb : ColorBlock) (hE : cb.edges = none)
    (hL : L ≠ []) :
    ∃ e1, (L.foldl (fun acc p => acc.add_codel p.row p.col) cb).edges = some e1 ∧
      (L.foldl (fun acc p => acc.add_codel p.row p.col) cb).area = cb.area ∪ L.toFinset ∧
      ∀ dp cc, e1 dp cc ∈ L ∧ ∀ p ∈ L, moreExtremal dp cc p (e1 dp cc) = false := by
  rcases L with _ | ⟨p, L2⟩
  · exact absurd rfl hL
  · have hpt : (⟨p.row, p.col⟩ : Point) = p := rfl
    have he2 : (cb.add_codel p.row p.col).edges = some (fun _ _ => (⟨p.row, p.col⟩ : Point)) :=
      add_codel_edges_none cb p.row p.col hE
    obtain ⟨e1, h1, h2, h3⟩ := foldl_add_codel L2 (cb.add_codel p.row p.col) _ he2
    refine ⟨e1, by simpa using h1, ?_, ?_⟩
    · simp only [List.foldl_cons]
      rw [h2, add_codel_area, hpt]
      simp [Finset.insert_union, Finset.union_insert]
    · intro dp cc
      obtain ⟨m1, m2, m3⟩ := h3 dp cc
      rw [hpt] at m1 m2
      refine ⟨?_, ?_⟩
      · rcases m1 with m1 | m1
        · exact m1 ▸ List.mem_cons_self p L2
        · exact List.mem_cons_of_mem p m1
      · intro q hq
        rcases List.mem_cons.mp hq with hq | hq
        · subst hq
          exact m2
        · exact m3 q hq

theorem edgeInv_merge (b s : ColorBlock) (hb : edgeInv b) (hs : edgeInv s) :
    edgeInv (mergeInto b s) := by
  rcases hSE : s.edges with _ | es
  · have ha : s.area = ∅ := (edgeInv_iff_of_none hSE).mp hs
    have hgoal : mergeInto b s = { b with area := b.area ∪ s.area } := by
      unfold mergeInto
      rw [hSE]
    rw [hgoal, ha, Finset.union_empty]
    exact hb
  · have hsI := (edgeInv_iff_of_some hSE).mp hs
    have hgoal : mergeInto b s =
        List.foldl (fun cb p => cb.add_codel p.row p.col)
          { b with area := b.area ∪ s.area }
          (List.map (fun k => es k.1 k.2) mergeInto.allDpCc) := by
      unfold mergeInto
      rw [hSE]
    have hLes : ∀ dp cc, es dp cc ∈ List.map (fun k => es k.1 k.2) mergeInto.allDpCc := by
      intro dp cc
      exact List.mem_map.mpr ⟨(dp, cc), by cases dp <;> cases cc <;> decide, rfl⟩
    rcases hBE : b.edges with _ | e0 <;> rw [hgoal]
    · have hba : b.area = ∅ := (edgeInv_iff_of_none hBE).mp hb
      have hb1E : ({ b with area := b.area ∪ s.area } : ColorBlock).edges = none := hBE
      obtain ⟨e1, h1, h2, h3⟩ :=
        foldl_add_codel_none (List.map (fun k => es k.1 k.2) mergeInto.allDpCc)
          { b with area := b.area ∪ s.area } hb1E (by simp [mergeInto.allDpCc])
      rw [edgeInv_iff_of_some h1]
      intro dp cc
      obtain ⟨m1, m2⟩ := h3 dp cc
      constructor
      · rw [h2]
        exact Finset.mem_union_right _ (List.mem_toFinset.mpr m1)
      · intro q hq
        rw [h2] at hq
        rcases Finset.mem_union.mp hq with hq | hq
        · rcases Finset.mem_union.mp hq with hq | hq
          · exact absurd hq (by simp [hba])
          · exact mE_chain dp cc q (es dp cc) (e1 dp cc)
              ((hsI dp cc).2 q hq) (m2 _ (hLes dp cc))
        · exact m2 q (List.mem_toFinset.mp hq)
    · have hbI := (edgeInv_iff_of_some hBE).mp hb
      have hb1E : ({ b with area := b.area ∪ s.area } : ColorBlock).edges = some e0 := hBE
      obtain ⟨e1, h1, h2, h3⟩ :=
        foldl_add_codel (List.map (fun k => es k.1 k.2) mergeInto.allDpCc)
          { b with area := b.area ∪ s.area } e0 hb1E
      rw [edgeInv_iff_of_some h1]
      intro dp cc
      obtain ⟨m1, m2, m3⟩ := h3 dp cc
      constructor
      · rw [h2]
        rcases m1 with m1 | m1
        · exact Finset.mem_union_left _ (Finset.mem_union_left _ (m1 ▸ (hbI dp cc).1))
        · exact Finset.mem_union_right _ (List.mem_toFinset.mpr m1)
      · intro q hq
        rw [h2] at hq
        rcases Finset.mem_union.mp hq with hq | hq
        · rcases Finset.mem_union.mp hq with hq | hq
          · exact mE_chain dp cc q (e0 dp cc) (e1 dp cc) ((hbI dp cc).2 q hq) m2
          · exact mE_chain dp cc q (es dp cc) (e1 dp cc)
              ((hsI dp cc).2 q hq) (m3 _ (hLes dp cc))
        · exact m3 q (List.mem_toFinset.mp hq)


/-- C7: the edge invariant holds after block construction
(ColorBlock::new) and is preserved by every codel addition
(ColorBlock::add_codel) and by every merge of two blocks (the block-level
effect of Program::merge_color_blocks): each stored edge representative
belongs to the block and no other member is more extremal for its
(dp, cc) pair per the section 4.2 table. -/
theorem claim7_edges :
    (∀ (c : Color) (row col : Nat), edgeInv (ColorBlock.new c row col)) ∧
      (∀ (cb : ColorBlock) (row col : Nat), edgeInv cb → edgeInv (cb.add_codel row col)) ∧
      (∀ b s : ColorBlock, edgeInv b → edgeInv s → edgeInv (mergeInto b s)) :=
  ⟨edgeInv_new, edgeInv_add, edgeInv_merge⟩

/-- C7 witness: the invariant instantiated on concrete blocks: a fresh
block grown by one codel, and a merge of two such blocks. -/
theorem claim7_edges_witness :
    edgeInv ((ColorBlock.new Color.Red 0 0).add_codel 0 1) ∧
      edgeInv (mergeInto ((ColorBlock.new Color.Red 0 0).add_codel 0 1)
        (ColorBlock.new Color.Red 1 0)) :=
  ⟨claim7_edges.2.1 _ 0 1 (claim7_edges.1 Color.Red 0 0),
    claim7_edges.2.2 _ _ (claim7_edges.2.1 _ 0 1 (claim7_edges.1 Color.Red 0 0))
      (claim7_edges.1 Color.Red 1 0)⟩

end Riet
